import Mathlib

/-!
Verification of the deduplication engine of `photos_dedupe`
(`src/photos_dedupe/dedupe.py`, `hashing.py`, `utils.py`).

Shallow embedding.  File-system facts (byte contents, image dimensions,
byte sizes) are packaged into an `Env` of accessor functions, fixed for a
run, matching the spec's "byte-producing accessors" collaborators:

* `sha256 f = none` models `calculate_sha256` raising (unreadable file);
  `get_sha256` re-raises, and `find_exact_duplicates` catches and skips.
* `phash f` is the perceptual fingerprint `imagehash.phash` would compute,
  modelled as a bit vector (`List Bool`); `none` models an undecodable
  image (the `except` branch of `HashCalculator.get_phash` returning
  `None`).
* `imagehashAvailable` is the module-level `IMAGEHASH_AVAILABLE` flag.
* `dims f` models `get_image_dimensions` (`none` = `(None, None)`),
  `size f` models `get_file_size`.

Hash caches (`sha256_cache`, `phash_cache`) only memoize these pure
accessors, so they are not represented: a cached lookup and a fresh
computation agree by determinism of the accessors.

`DuplicateGroup.winner_metadata` / `duplicate_metadata` (plain caches of
per-file metadata for the reporters) are not represented; no claim
mentions them.
-/

namespace PhotosDedupe

/-- File-system and library environment for one engine run. -/
structure Env where
  imagehashAvailable : Bool
  sha256 : String → Option String
  phash : String → Option (List Bool)
  dims : String → Option (Nat × Nat)
  size : String → Nat

/-! ### utils.py -/

/-- The characters from the last `'.'` of a name onward (dot included),
`none` when the name has no dot.  Helper for `pathSuffix`. -/
def lastDotSplit : List Char → Option (List Char)
  | [] => none
  | c :: rest =>
    match lastDotSplit rest with
    | some s => some s
    | none => if c = '.' then some (c :: rest) else none

/-- `pathlib.Path(p).name`: the final path component — trailing
separators are ignored, and the segment after the last `'/'` is kept. -/
def pathName (cs : List Char) : List Char :=
  ((cs.reverse.dropWhile (fun c => c = '/')).reverse).foldl
    (fun acc c => if c = '/' then [] else acc ++ [c]) []

/-- `pathlib.Path(p).suffix`: the extension of the final path component,
empty when the last dot is at position `0` (hidden file) or at the very
end of the name. -/
def pathSuffix (p : String) : String :=
  let cs := pathName p.data
  match lastDotSplit cs with
  | some s => if 1 < s.length ∧ s.length < cs.length then String.mk s else ""
  | none => ""

/-- The extension set of `utils.is_supported_image`. -/
def supportedImageExts : List String :=
  [".jpg", ".jpeg", ".png", ".webp", ".gif", ".heic", ".heif", ".tif", ".tiff"]

/-- `utils.is_supported_image`: suffix lower-cased (`str.lower` maps
`Char.toLower` over the characters) and looked up in the extension set. -/
def is_supported_image (p : String) : Bool :=
  supportedImageExts.contains (String.mk ((pathSuffix p).data.map Char.toLower))

/-! ### hashing.py -/

/-- `HashCalculator.get_sha256`: deterministic digest of the file's bytes,
`none` models the re-raised exception for an unreadable file. -/
def get_sha256 (env : Env) (f : String) : Option String :=
  env.sha256 f

/-- `HashCalculator.get_phash`: `None` when the imagehash library is
unavailable, when the extension is not a recognised image format, or when
decoding/hashing fails; otherwise the fingerprint. -/
def get_phash (env : Env) (f : String) : Option (List Bool) :=
  if !env.imagehashAvailable then none
  else if !is_supported_image f then none
  else env.phash f

/-- Bitwise comparison underlying `h1 - h2` on two `imagehash` values:
the number of differing bits when the fingerprints have equal length,
`none` (a raised `TypeError`) when the shapes differ. -/
def hammingBits : List Bool → List Bool → Option Nat
  | [], [] => some 0
  | a :: as, b :: bs => (hammingBits as bs).map (fun d => (if a = b then 0 else 1) + d)
  | _, _ => none

/-- The `try`/`except` body of `HashCalculator.hamming_distance` when the
library is available: the bit difference count, or the sentinel `999`
when the comparison raises ("Return high value to indicate incomparable
hashes"). -/
def hammingValue (h1 h2 : List Bool) : Nat :=
  match hammingBits h1 h2 with
  | some d => d
  | none => 999

/-- `HashCalculator.hamming_distance`: returns `0` when the imagehash
library is unavailable, otherwise `hammingValue`. -/
def hamming_distance (env : Env) (h1 h2 : List Bool) : Nat :=
  if env.imagehashAvailable then hammingValue h1 h2 else 0

/-! ### dedupe.py — exact pass -/

/-- Append `f` to the bucket keyed `k`, creating the bucket at the end
when absent: the `defaultdict(list)` update `hash_to_files[h].append(f)`
with Python-dict insertion order. -/
def addToBuckets : List (String × List String) → String → String → List (String × List String)
  | [], k, f => [(k, [f])]
  | (k', g) :: rest, k, f =>
    if k' = k then (k', g ++ [f]) :: rest else (k', g) :: addToBuckets rest k f

/-- The `hash_to_files` mapping built by the loop of
`Deduplicator.find_exact_duplicates`; a file whose digest raises is
logged and skipped (`continue`). -/
def buildBuckets (env : Env) (files : List String) : List (String × List String) :=
  files.foldl
    (fun b f =>
      match get_sha256 env f with
      | some h => addToBuckets b h f
      | none => b)
    []

/-- `Deduplicator.find_exact_duplicates`: the buckets with more than one
file, in bucket-creation order. -/
def find_exact_duplicates (env : Env) (files : List String) : List (List String) :=
  ((buildBuckets env files).map Prod.snd).filter (fun g => decide (1 < g.length))

/-! ### dedupe.py — perceptual pass -/

/-- One binding `file_hashes[f] = h` of the Python dict: repeated paths
rebind the same (deterministic) value, so keeping the first binding is
equivalent. -/
def addKey (m : List (String × List Bool)) (f : String) (h : List Bool) :
    List (String × List Bool) :=
  if m.any (fun p => p.1 == f) then m else m ++ [(f, h)]

/-- The `file_hashes` dict of `Deduplicator.find_perceptual_duplicates`:
filter to supported images, keep the files whose pHash is truthy. -/
def phashPairs (env : Env) (files : List String) : List (String × List Bool) :=
  (files.filter is_supported_image).foldl
    (fun m f =>
      match get_phash env f with
      | some h => addKey m f h
      | none => m)
    []

/-- One iteration of the inner scan over `files_list[i+1:]`: skip files
already claimed by a committed group, otherwise add the file when its
distance to the seed is within threshold, updating the running minimum. -/
def scanStep (env : Env) (t : Nat) (seedHash : List Bool) (proc : List String)
    (acc : List (String × List Bool) × Option Nat) (p : String × List Bool) :
    List (String × List Bool) × Option Nat :=
  if p.1 ∈ proc then acc
  else
    let d := hamming_distance env seedHash p.2
    if d ≤ t then
      (acc.1 ++ [p],
       some (match acc.2 with
             | none => d
             | some m => if d < m then d else m))
    else acc

/-- The whole inner scan for one seed: the files added to the open group
(with their fingerprints) and the minimum distance observed. -/
def scanSeed (env : Env) (t : Nat) (seedHash : List Bool)
    (rest : List (String × List Bool)) (proc : List String) :
    List (String × List Bool) × Option Nat :=
  rest.foldl (scanStep env t seedHash proc) ([], none)

/-- The outer loop of `Deduplicator.find_perceptual_duplicates`: iterate
in input order; a file in `processed` is skipped; otherwise it seeds a
group, the inner scan collects subsequent unclaimed files within
threshold, and groups with more than one file are committed (their
members marked processed) with `min_distance or 0`. -/
def greedy (env : Env) (t : Nat) :
    List (String × List Bool) → List String → List (List String × Nat)
  | [], _ => []
  | (f, h) :: rest, proc =>
    if f ∈ proc then greedy env t rest proc
    else
      let s := scanSeed env t h rest proc
      if s.1.isEmpty then greedy env t rest proc
      else
        (f :: s.1.map Prod.fst, s.2.getD 0) ::
          greedy env t rest (proc ++ f :: s.1.map Prod.fst)

/-- `Deduplicator.find_perceptual_duplicates`. -/
def find_perceptual_duplicates (env : Env) (t : Nat) (files : List String) :
    List (List String × Nat) :=
  greedy env t (phashPairs env files) []

/-! ### dedupe.py — winner selection -/

/-- Python string comparison `a <= b`: lexicographic on the code points,
i.e. the lexicographic order on the character lists. -/
def pathLE (a b : String) : Prop :=
  ¬ b.data < a.data

instance : DecidableRel pathLE := fun a b => by
  unfold pathLE
  exact inferInstance

/-- The per-candidate metadata dict built by `Deduplicator.select_winner`. -/
structure FileMeta where
  path : String
  width : Option Nat
  height : Option Nat
  resolution : Nat
  size : Nat
deriving Repr, DecidableEq

/-- Build one metadata entry: `resolution = width * height` when both are
truthy (present and nonzero), else `0`. -/
def mkMeta (env : Env) (f : String) : FileMeta :=
  let wh := env.dims f
  { path := f
    width := wh.map Prod.fst
    height := wh.map Prod.snd
    resolution :=
      match wh with
      | some (w, h) => if w ≠ 0 ∧ h ≠ 0 then w * h else 0
      | none => 0
    size := env.size f }

/-- The sort key `(-resolution, -size, path)` of `select_winner`, as a
total preorder (Python tuple comparison): resolution descending, then
size descending, then path ascending. -/
def metaKeyLE (a b : FileMeta) : Prop :=
  b.resolution < a.resolution ∨
    (a.resolution = b.resolution ∧
      (b.size < a.size ∨ (a.size = b.size ∧ pathLE a.path b.path)))

instance : DecidableRel metaKeyLE := fun a b => by
  unfold metaKeyLE
  exact inferInstance

/-- Python `str()` of an `Optional[int]` inside the reason f-string. -/
def pyOptStr (o : Option Nat) : String :=
  match o with
  | some n => toString n
  | none => "None"

/-- `Deduplicator.select_winner`.  `none` models the `IndexError` an
empty candidate list would raise (never reached by the engine).
Python's `sorted` is a stable sort; it is modelled by the (stable)
insertion sort — and with these keys any tied entries are identical
records, so the sorted list does not depend on the algorithm at all
(`sortedPermEq` below). -/
def select_winner (env : Env) (files : List String) : Option (String × String) :=
  if files.length = 1 then some (files.headD "", "only file in group")
  else
    match ((files.insertionSort pathLE).map (mkMeta env)).insertionSort metaKeyLE with
    | [] => none
    | [_] => none
    | winner :: second :: _ =>
      let reason :=
        if second.resolution < winner.resolution then
          let w := pyOptStr winner.width
          let h := pyOptStr winner.height
          s!"highest resolution ({w}x{h})"
        else if second.size < winner.size then
          let sz := toString winner.size
          s!"largest file size ({sz} bytes)"
        else "alphabetically first path"
      some (winner.path, reason)

/-! ### dedupe.py — group construction -/

/-- `DuplicateGroup` (metadata caches omitted, see header). -/
structure DuplicateGroup where
  group_id : Nat
  detection_type : String
  winner : String
  duplicates : List String
  reason : String
  phash_distance : Option Nat
deriving Repr, DecidableEq

/-- The group-population block shared by both passes of
`create_duplicate_groups`: pick the winner, the duplicates are the group
files other than the winner. -/
def mkGroup (env : Env) (gid : Nat) (dtype : String) (gf : List String)
    (dist : Option Nat) : DuplicateGroup :=
  let wr := (select_winner env gf).getD ("", "")
  { group_id := gid
    detection_type := dtype
    winner := wr.1
    duplicates := gf.filter (fun f => decide (f ≠ wr.1))
    reason := wr.2
    phash_distance := dist }

/-- `Deduplicator.create_duplicate_groups` for a given `mode` and
threshold `t`: the exact pass (when mode selects it), then the perceptual
pass over the files not claimed by the exact pass, with sequential ids. -/
def create_duplicate_groups (env : Env) (mode : String) (t : Nat)
    (files : List String) : List DuplicateGroup :=
  let exactGroups : List DuplicateGroup :=
    if mode = "exact" ∨ mode = "exact+perceptual" then
      (find_exact_duplicates env files).enum.map
        (fun ig => mkGroup env ig.1 "exact" ig.2 none)
    else []
  if mode = "perceptual" ∨ mode = "exact+perceptual" then
    let processed :=
      exactGroups.foldl (fun acc g => acc ++ g.winner :: g.duplicates) []
    let remaining := files.filter (fun f => decide (¬ f ∈ processed))
    exactGroups ++
      (find_perceptual_duplicates env t remaining).enum.map
        (fun ig =>
          mkGroup env (exactGroups.length + ig.1) "perceptual" ig.2.1 (some ig.2.2))
  else exactGroups

/-- `Deduplicator.get_all_winners`. -/
def get_all_winners (gs : List DuplicateGroup) : List String :=
  gs.map (fun g => g.winner)

/-- `Deduplicator.get_all_duplicates`. -/
def get_all_duplicates (gs : List DuplicateGroup) : List String :=
  gs.foldl (fun acc g => acc ++ g.duplicates) []

/-- `Deduplicator.get_unique_files`: the input files that are neither a
winner nor a duplicate. -/
def get_unique_files (gs : List DuplicateGroup) (all_files : List String) :
    List String :=
  all_files.filter
    (fun f => decide (¬ f ∈ get_all_winners gs ++ get_all_duplicates gs))

/-- The mutable fields of `Deduplicator` relevant to repeated runs. -/
structure Deduplicator where
  mode : String
  phash_threshold : Nat
  duplicate_groups : List DuplicateGroup

/-- One call `d.create_duplicate_groups(files)`: the engine resets
`self.duplicate_groups = []` and rebuilds it from the inputs. -/
def runEngine (env : Env) (files : List String) (d : Deduplicator) : Deduplicator :=
  { d with
    duplicate_groups := create_duplicate_groups env d.mode d.phash_threshold files }

/-- The paths a group claims: its winner together with its duplicates. -/
def claimedPaths (g : DuplicateGroup) : List String :=
  g.winner :: g.duplicates

/-!
### Claim-side definitions

Written from the spec's words, to be compared with the definitions above.
-/

/-- Spec side: "the number of differing bits" of two fingerprints. -/
def diffCount (a b : List Bool) : Nat :=
  ((a.zip b).filter (fun p => decide (p.1 ≠ p.2))).length

/-- Spec side: `distance(a, b)` "equal to the number of differing bits
when `a` and `b` have equal length; fails with `IncomparableFingerprints`
if lengths differ" — failure modelled as `none`. -/
def hammingClaim (a b : List Bool) : Option Nat :=
  if a.length = b.length then some (diffCount a b) else none

/-- Spec side: winner selection as the claim words it — sort candidates
by resolution descending, then byte size descending, then path
lexicographically ascending; the first candidate wins; the reason is the
first criterion distinguishing the winner from the runner-up; a
single-element list returns that file with reason "only file in group". -/
def selectWinnerClaim (env : Env) (files : List String) : Option (String × String) :=
  if files.length = 1 then some (files.headD "", "only file in group")
  else
    match (files.map (mkMeta env)).insertionSort metaKeyLE with
    | [] => none
    | [_] => none
    | winner :: second :: _ =>
      let reason :=
        if second.resolution < winner.resolution then
          let w := pyOptStr winner.width
          let h := pyOptStr winner.height
          s!"highest resolution ({w}x{h})"
        else if second.size < winner.size then
          let sz := toString winner.size
          s!"largest file size ({sz} bytes)"
        else "alphabetically first path"
      some (winner.path, reason)

/-- The fingerprint of a file as recorded in `file_hashes` (default for
files that have none; only applied to files with a fingerprint). -/
def phashOf (env : Env) (f : String) : List Bool :=
  (get_phash env f).getD []

/-- The condition under which the inner scan adds a file to the open
group: not yet claimed, and within threshold of the seed. -/
def scanKeep (env : Env) (t : Nat) (seedHash : List Bool) (proc : List String)
    (p : String × List Bool) : Bool :=
  !decide (p.1 ∈ proc) && decide (hamming_distance env seedHash p.2 ≤ t)

/-!
### Concrete environments used by witnesses and counterexamples
-/

/-- Two byte-identical files, no image metadata. -/
def envA : Env where
  imagehashAvailable := true
  sha256 := fun _ => some "h"
  phash := fun _ => none
  dims := fun _ => none
  size := fun _ => 0

/-- The winner-selection example of spec §8: `a.jpg` is 100×100 and
50000 bytes, every other file 200×200 and 10000 bytes. -/
def env2 : Env where
  imagehashAvailable := true
  sha256 := fun f => some f
  phash := fun _ => none
  dims := fun f => if f = "a.jpg" then some (100, 100) else some (200, 200)
  size := fun f => if f = "a.jpg" then 50000 else 10000

/-- Three images whose fingerprints are at pairwise Hamming distances
d(A,B)=3, d(A,C)=4, d(B,C)=7. -/
def env3 : Env where
  imagehashAvailable := true
  sha256 := fun f => some f
  phash := fun f =>
    if f = "a.jpg" then
      some [false, false, false, false, false, false, false, false]
    else if f = "b.jpg" then
      some [true, true, true, false, false, false, false, false]
    else if f = "c.jpg" then
      some [false, false, false, true, true, true, true, false]
    else none
  dims := fun _ => none
  size := fun _ => 0

/-- Three byte-identical files, two of them the same path listed twice;
`b.jpg` wins on resolution. -/
def envC : Env where
  imagehashAvailable := true
  sha256 := fun _ => some "h"
  phash := fun _ => none
  dims := fun f => if f = "b.jpg" then some (10, 10) else none
  size := fun _ => 0

/-- One readable and one unreadable file, one undecodable image. -/
def envB : Env where
  imagehashAvailable := true
  sha256 := fun f => if f = "bad.jpg" then none else some "h"
  phash := fun _ => none
  dims := fun _ => none
  size := fun _ => 0

/-!
## Helper lemmas on the derived views
-/

theorem foldl_append_eq {α β : Type} (h : β → List α) :
    ∀ (l : List β) (a : List α),
      l.foldl (fun acc g => acc ++ h g) a = a ++ (l.map h).flatten := by
  intro l
  induction l with
  | nil => intro a; simp
  | cons g rest ih => intro a; simp [ih, List.append_assoc]

theorem mem_get_all_winners {gs : List DuplicateGroup} {x : String} :
    x ∈ get_all_winners gs ↔ ∃ g ∈ gs, g.winner = x := by
  simp [get_all_winners]

theorem mem_get_all_duplicates {gs : List DuplicateGroup} {x : String} :
    x ∈ get_all_duplicates gs ↔ ∃ g ∈ gs, x ∈ g.duplicates := by
  simp [get_all_duplicates, foldl_append_eq]

theorem mem_get_unique_files {gs : List DuplicateGroup} {files : List String} {x : String} :
    x ∈ get_unique_files gs files ↔
      x ∈ files ∧ ¬(x ∈ get_all_winners gs ∨ x ∈ get_all_duplicates gs) := by
  simp [get_unique_files, List.mem_filter]

/-!
## C2 — winner selection against the spec's ranking
-/

theorem pathLE_iff (a b : String) : pathLE a b ↔ a.data ≤ b.data := by
  unfold pathLE
  exact not_lt

theorem pathLE_trans (a b c : String) : pathLE a b → pathLE b c → pathLE a c := by
  simp only [pathLE_iff]
  exact le_trans

theorem pathLE_total (a b : String) : pathLE a b ∨ pathLE b a := by
  simp only [pathLE_iff]
  exact le_total _ _

theorem pathLE_antisymm {a b : String} : pathLE a b → pathLE b a → a = b := by
  simp only [pathLE_iff]
  intro h1 h2
  have hd := le_antisymm h1 h2
  cases a
  cases b
  simp only at hd
  rw [hd]

theorem metaKeyLE_trans (a b c : FileMeta) :
    metaKeyLE a b → metaKeyLE b c → metaKeyLE a c := by
  unfold metaKeyLE
  intro hab hbc
  rcases hab with h | ⟨hr, hs⟩ <;> rcases hbc with h' | ⟨hr', hs'⟩
  · exact Or.inl (by omega)
  · exact Or.inl (by omega)
  · exact Or.inl (by omega)
  · refine Or.inr ⟨by omega, ?_⟩
    rcases hs with h | ⟨hse, hp⟩ <;> rcases hs' with h' | ⟨hse', hp'⟩
    · exact Or.inl (by omega)
    · exact Or.inl (by omega)
    · exact Or.inl (by omega)
    · exact Or.inr ⟨by omega, pathLE_trans _ _ _ hp hp'⟩

theorem metaKeyLE_total (a b : FileMeta) : metaKeyLE a b ∨ metaKeyLE b a := by
  unfold metaKeyLE
  rcases Nat.lt_trichotomy a.resolution b.resolution with h | h | h
  · exact Or.inr (Or.inl h)
  · rcases Nat.lt_trichotomy a.size b.size with h' | h' | h'
    · exact Or.inr (Or.inr ⟨h.symm, Or.inl h'⟩)
    · rcases pathLE_total a.path b.path with hp | hp
      · exact Or.inl (Or.inr ⟨h, Or.inr ⟨h', hp⟩⟩)
      · exact Or.inr (Or.inr ⟨h.symm, Or.inr ⟨h'.symm, hp⟩⟩)
    · exact Or.inl (Or.inr ⟨h, Or.inl h'⟩)
  · exact Or.inl (Or.inl h)

instance : IsTrans FileMeta metaKeyLE :=
  ⟨metaKeyLE_trans⟩

instance : IsTotal FileMeta metaKeyLE :=
  ⟨metaKeyLE_total⟩

theorem metaKeyLE_antisymm_path {a b : FileMeta} :
    metaKeyLE a b → metaKeyLE b a → a.path = b.path := by
  unfold metaKeyLE
  intro hab hba
  rcases hab with h | ⟨hr, hs⟩ <;> rcases hba with h' | ⟨hr', hs'⟩
  · omega
  · omega
  · omega
  · rcases hs with h | ⟨hse, hp⟩ <;> rcases hs' with h' | ⟨hse', hp'⟩
    · omega
    · omega
    · omega
    · exact pathLE_antisymm hp hp'

/-- Two sorted lists that are permutations of each other are equal, when
the order is antisymmetric on their members. -/
theorem sortedPermEq {α : Type} {le : α → α → Prop} :
    ∀ {l₁ l₂ : List α}, List.Perm l₁ l₂ →
      l₁.Pairwise le →
      l₂.Pairwise le →
      (∀ a ∈ l₁, ∀ b ∈ l₂, le a b → le b a → a = b) →
      l₁ = l₂ := by
  intro l₁
  induction l₁ with
  | nil =>
    intro l₂ p _ _ _
    exact p.nil_eq
  | cons a t₁ ih =>
    intro l₂ p s₁ s₂ anti
    cases l₂ with
    | nil =>
      have := p.length_eq
      simp at this
    | cons b t₂ =>
      have hab : a = b := by
        have ha2 : a ∈ b :: t₂ := p.subset (List.mem_cons_self a t₁)
        have hb1 : b ∈ a :: t₁ := p.symm.subset (List.mem_cons_self b t₂)
        rcases List.mem_cons.mp ha2 with h | h
        · exact h
        rcases List.mem_cons.mp hb1 with h' | h'
        · exact h'.symm
        · have hab' : le a b := (List.pairwise_cons.mp s₁).1 b h'
          have hba : le b a := (List.pairwise_cons.mp s₂).1 a h
          exact anti a (List.mem_cons_self a t₁) b (List.mem_cons_self b t₂) hab' hba
      subst hab
      have p' : List.Perm t₁ t₂ := p.cons_inv
      have ht : t₁ = t₂ :=
        ih p' (List.pairwise_cons.mp s₁).2 (List.pairwise_cons.mp s₂).2
          (fun x hx y hy => anti x (List.mem_cons_of_mem a hx) y (List.mem_cons_of_mem a hy))
      rw [ht]

theorem mkMeta_path (env : Env) (f : String) : (mkMeta env f).path = f := rfl

/-- Pre-sorting the candidates by path does not change the key-sorted
metadata list: the key's final component is the path, and metadata is a
function of the path. -/
theorem sortKey_eq (env : Env) (files : List String) :
    ((files.insertionSort pathLE).map (mkMeta env)).insertionSort metaKeyLE =
      (files.map (mkMeta env)).insertionSort metaKeyLE := by
  apply @sortedPermEq FileMeta metaKeyLE
  · have p1 := List.perm_insertionSort metaKeyLE
      ((files.insertionSort pathLE).map (mkMeta env))
    have p2 : List.Perm ((files.insertionSort pathLE).map (mkMeta env))
        (files.map (mkMeta env)) :=
      (List.perm_insertionSort pathLE files).map (mkMeta env)
    have p3 := (List.perm_insertionSort metaKeyLE (files.map (mkMeta env))).symm
    exact (p1.trans p2).trans p3
  · exact List.sorted_insertionSort metaKeyLE _
  · exact List.sorted_insertionSort metaKeyLE _
  · intro x hx y hy hxy hyx
    rw [List.mem_insertionSort] at hx hy
    rcases List.mem_map.mp hx with ⟨fx, -, hfx⟩
    rcases List.mem_map.mp hy with ⟨fy, -, hfy⟩
    have hp : x.path = y.path := metaKeyLE_antisymm_path hxy hyx
    have : fx = fy := by
      rw [← hfx, ← hfy] at hp
      simpa [mkMeta_path] using hp
    rw [← hfx, ← hfy, this]

/-- C2: `select_winner` implements the spec's ranking: it returns the
first candidate after sorting by resolution (width × height, `0` when
dimensions are unavailable) descending, then byte size descending, then
path ascending; the reason is the first criterion distinguishing winner
from runner-up; a single-element list returns that file with reason
"only file in group". -/
theorem select_winner_matches_claim (env : Env) (files : List String) :
    select_winner env files = selectWinnerClaim env files := by
  by_cases h1 : files.length = 1
  · unfold select_winner selectWinnerClaim
    rw [if_pos h1, if_pos h1]
  · simp only [select_winner, selectWinnerClaim, if_neg h1]
    rw [sortKey_eq]

/-- Closed instance of `select_winner_matches_claim`, on the winner
example of spec §8: 200×200 at 10000 bytes beats 100×100 at 50000
bytes, with the resolution reason. -/
theorem select_winner_matches_claim_w :
    select_winner env2 ["a.jpg", "b.jpg"] = selectWinnerClaim env2 ["a.jpg", "b.jpg"] ∧
    select_winner env2 ["a.jpg", "b.jpg"] =
      some ("b.jpg", "highest resolution (200x200)") :=
  ⟨select_winner_matches_claim env2 ["a.jpg", "b.jpg"], by decide⟩

/-!
## Bit-level facts about fingerprints
-/

theorem diffCount_cons (x y : Bool) (as bs : List Bool) :
    diffCount (x :: as) (y :: bs) = (if x = y then 0 else 1) + diffCount as bs := by
  unfold diffCount
  simp only [List.zip_cons_cons, List.filter_cons]
  by_cases h : x = y
  · simp [h]
  · simp [h, Nat.add_comm]

/-- The source bit comparison agrees pointwise with the spec-side
`hammingClaim` on the two defined cases — except that the source turns
the undefined case into the sentinel, which `hammingValue` captures. -/
theorem hammingBits_eq_claim : ∀ a b : List Bool, hammingBits a b = hammingClaim a b := by
  intro a
  induction a with
  | nil =>
    intro b
    cases b with
    | nil => rfl
    | cons y bs => simp [hammingBits, hammingClaim]
  | cons x as ih =>
    intro b
    cases b with
    | nil => simp [hammingBits, hammingClaim]
    | cons y bs =>
      simp only [hammingBits, ih bs, hammingClaim, diffCount_cons, List.length_cons]
      by_cases h : as.length = bs.length
      · simp [h]
      · have : ¬(as.length + 1 = bs.length + 1) := by omega
        simp [h, this]

/-!
## The perceptual scan: closed form for `scanSeed` and `greedy`
-/

theorem minIf_eq (d m : Nat) : (if d < m then d else m) = min m d := by
  rcases Nat.lt_or_ge d m with h | h
  · rw [if_pos h]; omega
  · rw [if_neg (by omega)]; omega

theorem min?_append_one (l : List Nat) (d : Nat) :
    (l ++ [d]).min? =
      some (match l.min? with
            | none => d
            | some m => min m d) := by
  cases l with
  | nil => rfl
  | cons x xs =>
    simp only [List.cons_append, List.min?_cons', List.foldl_append, List.foldl_cons,
      List.foldl_nil]

theorem scanSeed_go (env : Env) (t : Nat) (sh : List Bool) (proc : List String) :
    ∀ (rest : List (String × List Bool)) (acc : List (String × List Bool) × Option Nat),
      acc.2 = (acc.1.map (fun p => hamming_distance env sh p.2)).min? →
      rest.foldl (scanStep env t sh proc) acc =
        (acc.1 ++ rest.filter (scanKeep env t sh proc),
         ((acc.1 ++ rest.filter (scanKeep env t sh proc)).map
             (fun p => hamming_distance env sh p.2)).min?) := by
  intro rest
  induction rest with
  | nil =>
    intro acc hacc
    simp only [List.foldl_nil, List.filter_nil, List.append_nil]
    rw [← hacc]
  | cons p rest ih =>
    intro acc hacc
    simp only [List.foldl_cons, List.filter_cons]
    by_cases h1 : p.1 ∈ proc
    · have hk : scanKeep env t sh proc p = false := by simp [scanKeep, h1]
      have hstep : scanStep env t sh proc acc p = acc := by simp [scanStep, h1]
      rw [hstep, hk]
      simpa using ih acc hacc
    · by_cases h2 : hamming_distance env sh p.2 ≤ t
      · have hk : scanKeep env t sh proc p = true := by simp [scanKeep, h1, h2]
        have hstep : scanStep env t sh proc acc p =
            (acc.1 ++ [p],
             some (match acc.2 with
                   | none => hamming_distance env sh p.2
                   | some m =>
                     if hamming_distance env sh p.2 < m then
                       hamming_distance env sh p.2
                     else m)) := by
          simp [scanStep, h1, h2]
        have hinv :
            (some (match acc.2 with
                   | none => hamming_distance env sh p.2
                   | some m =>
                     if hamming_distance env sh p.2 < m then
                       hamming_distance env sh p.2
                     else m) : Option Nat) =
              ((acc.1 ++ [p]).map (fun p => hamming_distance env sh p.2)).min? := by
          rw [List.map_append]
          simp only [List.map_cons, List.map_nil]
          rw [min?_append_one]
          rw [hacc]
          cases hm : (acc.1.map (fun p => hamming_distance env sh p.2)).min? with
          | none => simp
          | some m => simp [minIf_eq]
        rw [hstep, hk]
        rw [ih (acc.1 ++ [p],
          some (match acc.2 with
                | none => hamming_distance env sh p.2
                | some m =>
                  if hamming_distance env sh p.2 < m then
                    hamming_distance env sh p.2
                  else m)) hinv]
        simp [List.append_assoc]
      · have hk : scanKeep env t sh proc p = false := by simp [scanKeep, h1, h2]
        have hstep : scanStep env t sh proc acc p = acc := by simp [scanStep, h1, h2]
        rw [hstep, hk]
        simpa using ih acc hacc

/-- Closed form of the inner scan: the files added are exactly the
unclaimed in-threshold files in order, and the tracked minimum is the
minimum of their distances to the seed. -/
theorem scanSeed_eq (env : Env) (t : Nat) (sh : List Bool)
    (rest : List (String × List Bool)) (proc : List String) :
    scanSeed env t sh rest proc =
      (rest.filter (scanKeep env t sh proc),
       ((rest.filter (scanKeep env t sh proc)).map
           (fun p => hamming_distance env sh p.2)).min?) := by
  unfold scanSeed
  simpa using scanSeed_go env t sh proc rest ([], none) (by simp)

/-- Structure of every group emitted by the greedy clustering: a seed
drawn from the list followed by the files its scan added, none of them
previously claimed, and the recorded distance is the minimum distance
from the seed to the added files (`0` if there were none). -/
theorem greedy_spec (env : Env) (t : Nat) :
    ∀ (l : List (String × List Bool)) (proc : List String) (g : List String) (d : Nat),
      (g, d) ∈ greedy env t l proc →
      ∃ f h ap, (f, h) ∈ l ∧ (∀ p ∈ ap, p ∈ l) ∧ ap ≠ [] ∧
        g = f :: ap.map Prod.fst ∧ (∀ x ∈ g, x ∉ proc) ∧
        d = ((ap.map (fun p => hamming_distance env h p.2)).min?).getD 0 := by
  intro l
  induction l with
  | nil =>
    intro proc g d hm
    simp [greedy] at hm
  | cons ph rest ih =>
    intro proc g d hm
    obtain ⟨f, h⟩ := ph
    rw [greedy] at hm
    by_cases h1 : f ∈ proc
    · rw [if_pos h1] at hm
      obtain ⟨f', h', ap, m1, m2, m3, m4, m5, m6⟩ := ih proc g d hm
      exact ⟨f', h', ap, List.mem_cons_of_mem _ m1,
        fun p hp => List.mem_cons_of_mem _ (m2 p hp), m3, m4, m5, m6⟩
    · rw [if_neg h1] at hm
      simp only [scanSeed_eq] at hm
      by_cases h2 : (rest.filter (scanKeep env t h proc)).isEmpty
      · rw [if_pos h2] at hm
        obtain ⟨f', h', ap, m1, m2, m3, m4, m5, m6⟩ := ih proc g d hm
        exact ⟨f', h', ap, List.mem_cons_of_mem _ m1,
          fun p hp => List.mem_cons_of_mem _ (m2 p hp), m3, m4, m5, m6⟩
      · rw [if_neg h2] at hm
        rcases List.mem_cons.mp hm with he | hm'
        · have hg : g = f :: (rest.filter (scanKeep env t h proc)).map Prod.fst :=
            congrArg Prod.fst he
          have hd : d = (((rest.filter (scanKeep env t h proc)).map
              (fun p => hamming_distance env h p.2)).min?).getD 0 :=
            congrArg Prod.snd he
          refine ⟨f, h, rest.filter (scanKeep env t h proc),
            List.mem_cons_self _ _, ?_, ?_, hg, ?_, hd⟩
          · intro p hp
            exact List.mem_cons_of_mem _ (List.mem_of_mem_filter hp)
          · intro hnil
            rw [hnil] at h2
            exact h2 rfl
          · intro x hx
            rw [hg] at hx
            rcases List.mem_cons.mp hx with hxf | hxm
            · rw [hxf]; exact h1
            · rcases List.mem_map.mp hxm with ⟨p, hp, hpx⟩
              have hk := List.of_mem_filter hp
              simp only [scanKeep, Bool.and_eq_true, Bool.not_eq_true',
                decide_eq_false_iff_not] at hk
              rw [← hpx]
              exact hk.1
        · obtain ⟨f', h', ap, m1, m2, m3, m4, m5, m6⟩ :=
            ih (proc ++ f :: (rest.filter (scanKeep env t h proc)).map Prod.fst) g d hm'
          exact ⟨f', h', ap, List.mem_cons_of_mem _ m1,
            fun p hp => List.mem_cons_of_mem _ (m2 p hp), m3, m4,
            fun x hx hxp => m5 x hx (List.mem_append_left _ hxp), m6⟩

theorem addKey_pairsOk {P : String × List Bool → Prop}
    {m : List (String × List Bool)} {f : String} {h : List Bool}
    (hm : ∀ p ∈ m, P p) (hf : P (f, h)) : ∀ p ∈ addKey m f h, P p := by
  unfold addKey
  split_ifs
  · exact hm
  · intro p hp
    rcases List.mem_append.mp hp with hp' | hp'
    · exact hm p hp'
    · have : p = (f, h) := by simpa using hp'
      rw [this]
      exact hf

theorem phashPairs_go_ok (env : Env) : ∀ (l : List String)
    (m : List (String × List Bool)),
    (∀ p ∈ m, get_phash env p.1 = some p.2) →
    ∀ p ∈ l.foldl
        (fun m f =>
          match get_phash env f with
          | some h => addKey m f h
          | none => m) m,
      get_phash env p.1 = some p.2 := by
  intro l
  induction l with
  | nil => intro m hm; exact hm
  | cons f rest ih =>
    intro m hm
    simp only [List.foldl_cons]
    cases hf : get_phash env f with
    | none => exact ih m hm
    | some h => exact ih _ (addKey_pairsOk hm hf)

/-- Every pair recorded in `file_hashes` binds a file to its own
fingerprint. -/
theorem phashPairs_pairsOk (env : Env) (files : List String) :
    ∀ p ∈ phashPairs env files, get_phash env p.1 = some p.2 := by
  unfold phashPairs
  exact phashPairs_go_ok env _ [] (by simp)

/-!
## C6 — the recorded distance of a perceptual group
-/

/-- C6: for every group emitted by the perceptual pass, the recorded
distance equals the minimum Hamming distance observed between the
cluster seed and the files added to the cluster, with `0` recorded if no
distance was observed. -/
theorem perceptual_distance_is_min (env : Env) (t : Nat) (files : List String)
    (seed : String) (added : List String) (d : Nat)
    (hm : (seed :: added, d) ∈ find_perceptual_duplicates env t files) :
    d = ((added.map (fun m =>
        hamming_distance env (phashOf env seed) (phashOf env m))).min?).getD 0 := by
  obtain ⟨f, h, ap, m1, m2, m3, m4, m5, m6⟩ := greedy_spec env t _ [] _ _ hm
  have hseed : seed = f := by
    injection m4 with h4a h4b
  have hadd : added = ap.map Prod.fst := by
    injection m4 with h4a h4b
  have hf : get_phash env f = some h := phashPairs_pairsOk env files (f, h) m1
  rw [m6, hseed, hadd]
  congr 2
  rw [List.map_map]
  apply List.map_congr_left
  intro p hp
  have hp' : get_phash env p.1 = some p.2 := phashPairs_pairsOk env files p (m2 p hp)
  simp only [Function.comp_apply, phashOf, hf, hp', Option.getD_some]

/-- Closed instance of `perceptual_distance_is_min` on the three-image
chain of `env3`. -/
theorem perceptual_distance_is_min_w :
    (["a.jpg", "b.jpg", "c.jpg"], 3) ∈
      find_perceptual_duplicates env3 6 ["a.jpg", "b.jpg", "c.jpg"] ∧
    3 = ((["b.jpg", "c.jpg"].map (fun m =>
        hamming_distance env3 (phashOf env3 "a.jpg") (phashOf env3 m))).min?).getD 0 :=
  ⟨by decide,
   perceptual_distance_is_min env3 6 ["a.jpg", "b.jpg", "c.jpg"] "a.jpg"
     ["b.jpg", "c.jpg"] 3 (by decide)⟩

/-!
## C3 — greedy chaining, and the claimed distances
-/

theorem hammingValue_eq (a b : List Bool) :
    hammingValue a b = if a.length = b.length then diffCount a b else 999 := by
  unfold hammingValue
  rw [hammingBits_eq_claim]
  unfold hammingClaim
  split_ifs <;> rfl

theorem diffCount_comm : ∀ a b : List Bool, diffCount a b = diffCount b a := by
  intro a
  induction a with
  | nil =>
    intro b
    cases b <;> rfl
  | cons x as ih =>
    intro b
    cases b with
    | nil => rfl
    | cons y bs =>
      rw [diffCount_cons, diffCount_cons, ih bs]
      by_cases h : x = y
      · rw [h]
      · have h' : y ≠ x := fun e => h e.symm
        simp [h, h']

theorem diffCount_triangle : ∀ (a b c : List Bool), a.length = b.length →
    b.length = c.length → diffCount a c ≤ diffCount a b + diffCount b c := by
  intro a
  induction a with
  | nil =>
    intro b c h1 h2
    cases b with
    | nil => simp [diffCount]
    | cons => simp at h1
  | cons x as ih =>
    intro b c h1 h2
    cases b with
    | nil => simp at h1
    | cons y bs =>
      cases c with
      | nil => simp at h2
      | cons z cs =>
        simp only [diffCount_cons]
        have hr := ih bs cs (by simpa using h1) (by simpa using h2)
        by_cases hxy : x = y
        · subst hxy
          by_cases hyz : x = z
          · subst hyz; simp; omega
          · simp [hyz]; omega
        · by_cases hyz : y = z
          · subst hyz
            simp [hxy]
            omega
          · by_cases hxz : x = z
            · subst hxz
              simp [hxy, hyz]
              omega
            · simp [hxy, hyz, hxz]
              omega

/-- C3 counterexample: no fingerprints realise the claim's distances.
The bit-difference count obeys the triangle inequality, so
d(B,C) ≤ d(A,B) + d(A,C) = 7 < 9: the scenario of the claim (and of
spec §8) is unsatisfiable. -/
theorem perceptual_scenario_unsatisfiable :
    ¬ ∃ (A B C : List Bool), hammingValue A B = 3 ∧ hammingValue A C = 4 ∧
      hammingValue B C = 9 := by
  rintro ⟨A, B, C, h1, h2, h3⟩
  rw [hammingValue_eq] at h1 h2 h3
  by_cases l1 : A.length = B.length
  case neg => rw [if_neg l1] at h1; omega
  by_cases l2 : A.length = C.length
  case neg => rw [if_neg l2] at h2; omega
  have l3 : B.length = C.length := by omega
  rw [if_pos l1] at h1
  rw [if_pos l2] at h2
  rw [if_pos l3] at h3
  have htri := diffCount_triangle B A C l1.symm l2
  have hcomm : diffCount B A = diffCount A B := diffCount_comm B A
  omega

/-- C3 (amended): clustering is greedy seed-based chaining — files are
iterated in input order, claimed files are skipped, an unclaimed file
seeds a group that absorbs every subsequent unclaimed file within
threshold of the seed.  For fingerprints A, B, C at distances
d(A,B)=3, d(A,C)=4, d(B,C)=7 (the claim's 9 is unrealisable, 7 is the
maximum the triangle inequality allows — still above the threshold) and
threshold 6, all three files end up in one 3-member group. -/
theorem perceptual_chaining (env : Env) (A B C : List Bool)
    (hA : get_phash env "a.jpg" = some A)
    (hB : get_phash env "b.jpg" = some B)
    (hC : get_phash env "c.jpg" = some C)
    (dAB : hamming_distance env A B = 3)
    (dAC : hamming_distance env A C = 4)
    (dBC : hamming_distance env B C = 7) :
    find_perceptual_duplicates env 6 ["a.jpg", "b.jpg", "c.jpg"] =
      [(["a.jpg", "b.jpg", "c.jpg"], 3)] := by
  have himg : (["a.jpg", "b.jpg", "c.jpg"].filter is_supported_image) =
      ["a.jpg", "b.jpg", "c.jpg"] := by decide
  have hpp : phashPairs env ["a.jpg", "b.jpg", "c.jpg"] =
      [("a.jpg", A), ("b.jpg", B), ("c.jpg", C)] := by
    unfold phashPairs
    rw [himg]
    simp only [List.foldl_cons, List.foldl_nil, hA, hB, hC]
    simp [addKey]
  unfold find_perceptual_duplicates
  rw [hpp]
  simp [greedy, scanSeed_eq, scanKeep, dAB, dAC, dBC, List.min?_cons']

/-- Closed instance of `perceptual_chaining` on `env3`. -/
theorem perceptual_chaining_w :
    find_perceptual_duplicates env3 6 ["a.jpg", "b.jpg", "c.jpg"] =
      [(["a.jpg", "b.jpg", "c.jpg"], 3)] :=
  perceptual_chaining env3
    [false, false, false, false, false, false, false, false]
    [true, true, true, false, false, false, false, false]
    [false, false, false, true, true, true, true, false]
    (by decide) (by decide) (by decide) (by decide) (by decide) (by decide)

/-!
## C9 — determinism across repeated runs
-/

/-- C9: running `create_duplicate_groups` twice on the same input list
(with the same mode, threshold, and file contents/metadata) produces
identical group ids, winners and reason strings: the engine resets its
group list at the start of each run and the result depends only on the
run's inputs. -/
theorem engine_deterministic (env : Env) (files : List String) (d : Deduplicator) :
    ((runEngine env files (runEngine env files d)).duplicate_groups.map
        (fun g => g.group_id) =
      (runEngine env files d).duplicate_groups.map (fun g => g.group_id)) ∧
    ((runEngine env files (runEngine env files d)).duplicate_groups.map
        (fun g => g.winner) =
      (runEngine env files d).duplicate_groups.map (fun g => g.winner)) ∧
    ((runEngine env files (runEngine env files d)).duplicate_groups.map
        (fun g => g.reason) =
      (runEngine env files d).duplicate_groups.map (fun g => g.reason)) :=
  ⟨rfl, rfl, rfl⟩

/-- Closed instance of `engine_deterministic`. -/
theorem engine_deterministic_w :
    ((runEngine envA ["a.jpg", "b.jpg"]
        (runEngine envA ["a.jpg", "b.jpg"] ⟨"exact", 6, []⟩)).duplicate_groups.map
        (fun g => g.winner) =
      (runEngine envA ["a.jpg", "b.jpg"] ⟨"exact", 6, []⟩).duplicate_groups.map
        (fun g => g.winner)) :=
  (engine_deterministic envA ["a.jpg", "b.jpg"] ⟨"exact", 6, []⟩).2.1

/-!
## C10 — unrecognised mode
-/

/-- C10: when the mode string is none of "exact", "perceptual",
"exact+perceptual", neither detection pass runs: `create_duplicate_groups`
returns `[]` and every input file is reported unique. -/
theorem unknown_mode_all_unique (env : Env) (mode : String) (t : Nat)
    (files : List String) (h1 : mode ≠ "exact") (h2 : mode ≠ "perceptual")
    (h3 : mode ≠ "exact+perceptual") :
    create_duplicate_groups env mode t files = [] ∧
    get_unique_files (create_duplicate_groups env mode t files) files = files := by
  have c1 : ¬(mode = "exact" ∨ mode = "exact+perceptual") := by tauto
  have c2 : ¬(mode = "perceptual" ∨ mode = "exact+perceptual") := by tauto
  have he : create_duplicate_groups env mode t files = [] := by
    simp [create_duplicate_groups, c1, c2]
  refine ⟨he, ?_⟩
  rw [he]
  simp [get_unique_files, get_all_winners, get_all_duplicates]

/-- Closed instance of `unknown_mode_all_unique` at mode "off". -/
theorem unknown_mode_all_unique_w :
    create_duplicate_groups envA "off" 6 ["a.jpg"] = [] ∧
    get_unique_files (create_duplicate_groups envA "off" 6 ["a.jpg"]) ["a.jpg"] =
      ["a.jpg"] :=
  unknown_mode_all_unique envA "off" 6 ["a.jpg"] (by decide) (by decide) (by decide)

/-!
## C4 — Hamming distance on mismatched fingerprints
-/

/-- C4 (amended): with the imagehash library available,
`hamming_distance` returns the number of differing bits for equal-length
fingerprints and returns the sentinel value `999` (the comparison error
is caught) when the lengths differ; with the library unavailable it
returns `0`. -/
theorem hamming_distance_spec (env : Env) (h1 h2 : List Bool) :
    (env.imagehashAvailable = true →
      (h1.length = h2.length → hamming_distance env h1 h2 = diffCount h1 h2) ∧
      (h1.length ≠ h2.length → hamming_distance env h1 h2 = 999)) ∧
    (env.imagehashAvailable = false → hamming_distance env h1 h2 = 0) := by
  constructor
  · intro hav
    constructor
    · intro hlen
      simp [hamming_distance, hav, hammingValue, hammingBits_eq_claim, hammingClaim, hlen]
    · intro hlen
      simp [hamming_distance, hav, hammingValue, hammingBits_eq_claim, hammingClaim, hlen]
  · intro hav
    simp [hamming_distance, hav]

/-- C4 counterexample: for fingerprints of differing lengths the claim
demands a failure (`IncomparableFingerprints`, i.e. no returned value),
but the code catches the comparison error and returns the sentinel 999. -/
theorem hamming_mismatch_returns_value :
    hammingClaim [true] [true, false] = none ∧
    hamming_distance envA [true] [true, false] = 999 := by
  constructor <;> rfl

/-- Closed instance of `hamming_distance_spec`. -/
theorem hamming_distance_spec_w :
    hamming_distance envA [true, false] [true, true] =
      diffCount [true, false] [true, true] ∧
    hamming_distance envA [true] [true, true] = 999 :=
  ⟨((hamming_distance_spec envA [true, false] [true, true]).1 rfl).1 rfl,
   ((hamming_distance_spec envA [true] [true, true]).1 rfl).2 (by decide)⟩

/-!
## C7 — per-file hashing failures are local
-/

theorem buildBuckets_filter (env : Env) : ∀ (files : List String)
    (B : List (String × List String)),
    files.foldl
      (fun b f =>
        match get_sha256 env f with
        | some h => addToBuckets b h f
        | none => b) B =
    (files.filter (fun f => (get_sha256 env f).isSome)).foldl
      (fun b f =>
        match get_sha256 env f with
        | some h => addToBuckets b h f
        | none => b) B := by
  intro files
  induction files with
  | nil => intro B; rfl
  | cons f rest ih =>
    intro B
    cases hf : get_sha256 env f with
    | none => simp [List.filter_cons, hf, ih]
    | some h => simp [List.filter_cons, hf, ih]

/-- The exact pass over the input equals the exact pass over the files
whose digest computation succeeds: a raising digest only excludes its
own file. -/
theorem find_exact_skips_failures (env : Env) (files : List String) :
    find_exact_duplicates env files =
      find_exact_duplicates env (files.filter (fun x => (get_sha256 env x).isSome)) := by
  unfold find_exact_duplicates buildBuckets
  rw [buildBuckets_filter]

theorem get_phash_some_image {env : Env} {f : String} {h : List Bool}
    (hh : get_phash env f = some h) : is_supported_image f = true := by
  by_contra hb
  simp [get_phash, hb] at hh

theorem phashPairs_go_filter (env : Env) : ∀ (l : List String)
    (m : List (String × List Bool)),
    l.foldl
      (fun m f =>
        match get_phash env f with
        | some h => addKey m f h
        | none => m) m =
    (l.filter (fun f => (get_phash env f).isSome)).foldl
      (fun m f =>
        match get_phash env f with
        | some h => addKey m f h
        | none => m) m := by
  intro l
  induction l with
  | nil => intro m; rfl
  | cons f rest ih =>
    intro m
    cases hf : get_phash env f with
    | none => simp [List.filter_cons, hf, ih]
    | some h => simp [List.filter_cons, hf, ih]

theorem phashPairs_filter_absent (env : Env) (files : List String) :
    phashPairs env (files.filter (fun x => (get_phash env x).isSome)) =
      phashPairs env files := by
  unfold phashPairs
  rw [phashPairs_go_filter env (files.filter is_supported_image)]
  rw [List.filter_filter, List.filter_filter]
  congr 1
  apply List.filter_congr
  intro f _
  cases hf : get_phash env f with
  | none => simp
  | some h => simp [get_phash_some_image hf]

/-- C7: a per-file hashing failure never aborts a pass.  A file whose
content digest raises is skipped by the exact pass (output unchanged
versus omitting it); `get_phash` returns `none` rather than raising when
the image cannot be decoded or the library is unavailable; and files
without a fingerprint are simply excluded from the perceptual pass
(output unchanged versus omitting them). -/
theorem per_file_failures_nonfatal (env : Env) (t : Nat) (files : List String)
    (f : String) :
    find_exact_duplicates env files =
      find_exact_duplicates env (files.filter (fun x => (get_sha256 env x).isSome)) ∧
    (env.phash f = none ∨ env.imagehashAvailable = false → get_phash env f = none) ∧
    find_perceptual_duplicates env t files =
      find_perceptual_duplicates env t
        (files.filter (fun x => (get_phash env x).isSome)) := by
  refine ⟨find_exact_skips_failures env files, ?_, ?_⟩
  · intro h
    unfold get_phash
    rcases h with h | h
    · split_ifs <;> simp [h]
    · simp [h]
  · unfold find_perceptual_duplicates
    rw [phashPairs_filter_absent]

/-- Closed instance of `per_file_failures_nonfatal`: `bad.jpg` has an
unreadable digest and no fingerprint, yet both passes behave as if it
were omitted. -/
theorem per_file_failures_nonfatal_w :
    find_exact_duplicates envB ["good.jpg", "bad.jpg"] =
      find_exact_duplicates envB
        (["good.jpg", "bad.jpg"].filter (fun x => (get_sha256 envB x).isSome)) ∧
    get_phash envB "bad.jpg" = none ∧
    find_perceptual_duplicates envB 6 ["good.jpg", "bad.jpg"] =
      find_perceptual_duplicates envB 6
        (["good.jpg", "bad.jpg"].filter (fun x => (get_phash envB x).isSome)) :=
  ⟨(per_file_failures_nonfatal envB 6 ["good.jpg", "bad.jpg"] "bad.jpg").1,
   (per_file_failures_nonfatal envB 6 ["good.jpg", "bad.jpg"] "bad.jpg").2.1
     (Or.inl rfl),
   (per_file_failures_nonfatal envB 6 ["good.jpg", "bad.jpg"] "bad.jpg").2.2⟩

/-!
## Disjointness of the clusters emitted by the greedy scan
-/

theorem greedy_not_proc (env : Env) (t : Nat) {l : List (String × List Bool)}
    {proc : List String} {gd : List String × Nat} (hm : gd ∈ greedy env t l proc) :
    ∀ x ∈ gd.1, x ∉ proc := by
  obtain ⟨g, d⟩ := gd
  obtain ⟨f, h, ap, -, -, -, -, m5, -⟩ := greedy_spec env t l proc g d hm
  exact m5

theorem greedy_sub_keys (env : Env) (t : Nat) {l : List (String × List Bool)}
    {proc : List String} {gd : List String × Nat} (hm : gd ∈ greedy env t l proc) :
    ∀ x ∈ gd.1, x ∈ l.map Prod.fst := by
  obtain ⟨g, d⟩ := gd
  obtain ⟨f, h, ap, m1, m2, -, m4, -, -⟩ := greedy_spec env t l proc g d hm
  intro x hx
  rw [m4] at hx
  rcases List.mem_cons.mp hx with hxf | hxm
  · rw [hxf]
    exact List.mem_map.mpr ⟨(f, h), m1, rfl⟩
  · rcases List.mem_map.mp hxm with ⟨p, hp, hpx⟩
    exact List.mem_map.mpr ⟨p, m2 p hp, hpx⟩

theorem greedy_group_nodup (env : Env) (t : Nat) :
    ∀ (l : List (String × List Bool)) (proc : List String),
      (l.map Prod.fst).Nodup →
      ∀ gd ∈ greedy env t l proc, gd.1.Nodup := by
  intro l
  induction l with
  | nil => intro proc _ gd hm; simp [greedy] at hm
  | cons ph rest ih =>
    intro proc hnd gd hm
    obtain ⟨f, h⟩ := ph
    have hnd' : (rest.map Prod.fst).Nodup := (List.nodup_cons.mp hnd).2
    have hf : f ∉ rest.map Prod.fst := (List.nodup_cons.mp hnd).1
    rw [greedy] at hm
    by_cases h1 : f ∈ proc
    · rw [if_pos h1] at hm
      exact ih proc hnd' gd hm
    · rw [if_neg h1] at hm
      simp only [scanSeed_eq] at hm
      by_cases h2 : (rest.filter (scanKeep env t h proc)).isEmpty
      · rw [if_pos h2] at hm
        exact ih proc hnd' gd hm
      · rw [if_neg h2] at hm
        rcases List.mem_cons.mp hm with he | hm'
        · rw [he]
          refine List.nodup_cons.mpr ⟨?_, ?_⟩
          · intro hc
            apply hf
            rcases List.mem_map.mp hc with ⟨p, hp, hpx⟩
            exact List.mem_map.mpr ⟨p, List.mem_of_mem_filter hp, hpx⟩
          · exact List.Nodup.sublist
              ((List.filter_sublist _).map Prod.fst) hnd'
        · exact ih _ hnd' gd hm'

theorem greedy_pairwise (env : Env) (t : Nat) :
    ∀ (l : List (String × List Bool)) (proc : List String),
      List.Pairwise (fun gd1 gd2 => ∀ x, x ∈ gd1.1 → x ∉ gd2.1)
        (greedy env t l proc) := by
  intro l
  induction l with
  | nil => intro proc; simp [greedy]
  | cons ph rest ih =>
    intro proc
    obtain ⟨f, h⟩ := ph
    rw [greedy]
    by_cases h1 : f ∈ proc
    · rw [if_pos h1]
      exact ih proc
    · rw [if_neg h1]
      simp only [scanSeed_eq]
      by_cases h2 : (rest.filter (scanKeep env t h proc)).isEmpty
      · rw [if_pos h2]
        exact ih proc
      · rw [if_neg h2]
        refine List.pairwise_cons.mpr ⟨?_, ih _⟩
        intro gd hgd x hx hx'
        have hnp := greedy_not_proc env t hgd x hx'
        exact hnp (List.mem_append_right _ hx)

/-!
## The `file_hashes` dict: keys are distinct input files
-/

theorem addKey_keys_nodup {m : List (String × List Bool)} {f : String}
    {h : List Bool} (hm : (m.map Prod.fst).Nodup) :
    ((addKey m f h).map Prod.fst).Nodup := by
  unfold addKey
  split_ifs with hc
  · exact hm
  · rw [List.map_append]
    simp only [List.map_cons, List.map_nil]
    rw [List.nodup_append]
    refine ⟨hm, List.nodup_singleton f, ?_⟩
    intro x hx hx'
    have hx'' : x = f := by simpa using hx'
    rcases List.mem_map.mp hx with ⟨p, hp, hpx⟩
    have hany : ∀ (b : List Bool), (f, b) ∉ m := by
      simpa [List.any_eq_true] using hc
    have hpf : p.1 = f := hpx.trans hx''
    have hmem : (f, p.2) ∈ m := by
      rw [← hpf]
      exact hp
    exact hany p.2 hmem

theorem phashPairs_go_keys_nodup (env : Env) : ∀ (l : List String)
    (m : List (String × List Bool)),
    (m.map Prod.fst).Nodup →
    (((l.foldl
        (fun m f =>
          match get_phash env f with
          | some h => addKey m f h
          | none => m) m)).map Prod.fst).Nodup := by
  intro l
  induction l with
  | nil => intro m hm; exact hm
  | cons f rest ih =>
    intro m hm
    simp only [List.foldl_cons]
    cases hf : get_phash env f with
    | none => exact ih m hm
    | some h => exact ih _ (addKey_keys_nodup hm)

theorem phashPairs_keys_nodup (env : Env) (files : List String) :
    ((phashPairs env files).map Prod.fst).Nodup := by
  unfold phashPairs
  exact phashPairs_go_keys_nodup env _ [] (by simp)

theorem phashPairs_keys_sub (env : Env) (files : List String) :
    ∀ p ∈ phashPairs env files, p.1 ∈ files := by
  unfold phashPairs
  have main : ∀ (l : List String) (m : List (String × List Bool)),
      (∀ f ∈ l, f ∈ files) → (∀ p ∈ m, p.1 ∈ files) →
      ∀ p ∈ l.foldl
          (fun m f =>
            match get_phash env f with
            | some h => addKey m f h
            | none => m) m, p.1 ∈ files := by
    intro l
    induction l with
    | nil => intro m _ hm; exact hm
    | cons f rest ih =>
      intro m hl hm
      simp only [List.foldl_cons]
      cases hf : get_phash env f with
      | none => exact ih m (fun x hx => hl x (List.mem_cons_of_mem _ hx)) hm
      | some h =>
        exact ih _ (fun x hx => hl x (List.mem_cons_of_mem _ hx))
          (addKey_pairsOk hm (hl f (List.mem_cons_self _ _)))
  exact main _ [] (fun f hf => List.mem_of_mem_filter hf) (by simp)

/-!
## Exact buckets: digest-keyed, disjoint, drawn from the input
-/

theorem addToBuckets_key (P : String → String → Prop) {k : String} {f : String} :
    ∀ (B : List (String × List String)),
      (∀ kg ∈ B, ∀ x ∈ kg.2, P kg.1 x) → P k f →
      ∀ kg ∈ addToBuckets B k f, ∀ x ∈ kg.2, P kg.1 x := by
  intro B
  induction B with
  | nil =>
    intro _ hf kg hkg x hx
    simp only [addToBuckets, List.mem_singleton] at hkg
    rw [hkg] at hx ⊢
    have : x = f := by simpa using hx
    rw [this]
    exact hf
  | cons b rest ih =>
    intro hB hf kg hkg x hx
    obtain ⟨k', g⟩ := b
    rw [addToBuckets] at hkg
    split_ifs at hkg with hk
    · rcases List.mem_cons.mp hkg with he | hm
      · rw [he] at hx ⊢
        rcases List.mem_append.mp hx with hx' | hx'
        · exact hB (k', g) (List.mem_cons_self _ _) x hx'
        · have hxf : x = f := by simpa using hx'
          rw [hxf]
          rw [← hk] at hf
          exact hf
      · exact hB kg (List.mem_cons_of_mem _ hm) x hx
    · rcases List.mem_cons.mp hkg with he | hm
      · rw [he] at hx ⊢
        exact hB (k', g) (List.mem_cons_self _ _) x hx
      · exact ih (fun kg h => hB kg (List.mem_cons_of_mem _ h)) hf kg hm x hx

theorem addToBuckets_keys_sub {k f : String} : ∀ (B : List (String × List String))
    (k' : String), k' ∈ (addToBuckets B k f).map Prod.fst →
    k' ∈ B.map Prod.fst ∨ k' = k := by
  intro B
  induction B with
  | nil =>
    intro k' h
    right
    simpa [addToBuckets] using h
  | cons b rest ih =>
    intro k' h
    obtain ⟨k0, g⟩ := b
    rw [addToBuckets] at h
    split_ifs at h with hk
    · simp only [List.map_cons] at h ⊢
      exact Or.inl h
    · simp only [List.map_cons, List.mem_cons] at h ⊢
      rcases h with h | h
      · exact Or.inl (Or.inl h)
      · rcases ih k' h with h' | h'
        · exact Or.inl (Or.inr h')
        · exact Or.inr h'

theorem addToBuckets_keys_nodup {k f : String} : ∀ (B : List (String × List String)),
    (B.map Prod.fst).Nodup → ((addToBuckets B k f).map Prod.fst).Nodup := by
  intro B
  induction B with
  | nil =>
    intro _
    simp [addToBuckets]
  | cons b rest ih =>
    intro hnd
    obtain ⟨k0, g⟩ := b
    simp only [List.map_cons, List.nodup_cons] at hnd
    rw [addToBuckets]
    split_ifs with hk
    · simp only [List.map_cons, List.nodup_cons]
      exact hnd
    · simp only [List.map_cons, List.nodup_cons]
      refine ⟨?_, ih hnd.2⟩
      intro hc
      rcases addToBuckets_keys_sub rest k0 hc with h' | h'
      · exact hnd.1 h'
      · exact hk h'

theorem addToBuckets_sublist {k f : String} : ∀ (B : List (String × List String))
    (pfx : List String), (∀ kg ∈ B, kg.2.Sublist pfx) →
    ∀ kg ∈ addToBuckets B k f, kg.2.Sublist (pfx ++ [f]) := by
  intro B
  induction B with
  | nil =>
    intro pfx _ kg hkg
    have : kg = (k, [f]) := by simpa [addToBuckets] using hkg
    rw [this]
    exact (List.singleton_sublist.mpr (List.mem_append_right _ (by simp)))
  | cons b rest ih =>
    intro pfx hB kg hkg
    obtain ⟨k0, g⟩ := b
    rw [addToBuckets] at hkg
    split_ifs at hkg with hk
    · rcases List.mem_cons.mp hkg with he | hm
      · rw [he]
        exact List.Sublist.append (hB (k0, g) (List.mem_cons_self _ _)) (by simp)
      · exact ((hB kg (List.mem_cons_of_mem _ hm)).trans
          (List.sublist_append_left pfx [f]))
    · rcases List.mem_cons.mp hkg with he | hm
      · rw [he]
        exact ((hB (k0, g) (List.mem_cons_self _ _)).trans
          (List.sublist_append_left pfx [f]))
      · exact ih pfx (fun kg h => hB kg (List.mem_cons_of_mem _ h)) kg hm

theorem buildBuckets_sha (env : Env) : ∀ (files : List String)
    (B : List (String × List String)),
    (∀ kg ∈ B, ∀ x ∈ kg.2, get_sha256 env x = some kg.1) →
    ∀ kg ∈ files.foldl
        (fun b f =>
          match get_sha256 env f with
          | some h => addToBuckets b h f
          | none => b) B,
      ∀ x ∈ kg.2, get_sha256 env x = some kg.1 := by
  intro files
  induction files with
  | nil => intro B hB; exact hB
  | cons f rest ih =>
    intro B hB
    simp only [List.foldl_cons]
    cases hf : get_sha256 env f with
    | none => exact ih B hB
    | some h =>
      exact ih _ (addToBuckets_key (fun k x => get_sha256 env x = some k) B hB hf)

theorem buildBuckets_keys_nodup (env : Env) : ∀ (files : List String)
    (B : List (String × List String)),
    (B.map Prod.fst).Nodup →
    (((files.foldl
        (fun b f =>
          match get_sha256 env f with
          | some h => addToBuckets b h f
          | none => b) B)).map Prod.fst).Nodup := by
  intro files
  induction files with
  | nil => intro B hB; exact hB
  | cons f rest ih =>
    intro B hB
    simp only [List.foldl_cons]
    cases hf : get_sha256 env f with
    | none => exact ih B hB
    | some h => exact ih _ (addToBuckets_keys_nodup B hB)

theorem buildBuckets_sublist (env : Env) : ∀ (files : List String)
    (B : List (String × List String)) (pfx : List String),
    (∀ kg ∈ B, kg.2.Sublist pfx) →
    ∀ kg ∈ files.foldl
        (fun b f =>
          match get_sha256 env f with
          | some h => addToBuckets b h f
          | none => b) B,
      kg.2.Sublist (pfx ++ files) := by
  intro files
  induction files with
  | nil =>
    intro B pfx hB kg hkg
    simpa using hB kg hkg
  | cons f rest ih =>
    intro B pfx hB kg hkg
    simp only [List.foldl_cons] at hkg
    have hstep : ∀ kg ∈ (match get_sha256 env f with
        | some h => addToBuckets B h f
        | none => B), kg.2.Sublist (pfx ++ [f]) := by
      cases hf : get_sha256 env f with
      | none =>
        intro kg hkg
        exact (hB kg hkg).trans (List.sublist_append_left pfx [f])
      | some h => exact addToBuckets_sublist B pfx hB
    have := ih _ (pfx ++ [f]) hstep kg hkg
    rwa [List.append_assoc, List.singleton_append] at this

/-!
## The exact duplicate groups
-/

theorem find_exact_mem_bucket (env : Env) (files : List String) :
    ∀ g ∈ find_exact_duplicates env files,
      1 < g.length ∧ g.Sublist files ∧ ∃ k, ∀ x ∈ g, get_sha256 env x = some k := by
  intro g hg
  unfold find_exact_duplicates at hg
  have hlen : 1 < g.length := by
    have := List.of_mem_filter hg
    simpa using this
  have hg' : g ∈ (buildBuckets env files).map Prod.snd := List.mem_of_mem_filter hg
  rcases List.mem_map.mp hg' with ⟨kg, hkg, hkgg⟩
  unfold buildBuckets at hkg
  refine ⟨hlen, ?_, ⟨kg.1, ?_⟩⟩
  · have := buildBuckets_sublist env files [] [] (by simp) kg hkg
    rw [← hkgg]
    simpa using this
  · intro x hx
    rw [← hkgg] at hx
    exact buildBuckets_sha env files [] (by simp) kg hkg x hx

theorem find_exact_pairwise (env : Env) (files : List String) :
    List.Pairwise (fun g1 g2 => ∀ x, x ∈ g1 → x ∉ g2)
      (find_exact_duplicates env files) := by
  unfold find_exact_duplicates
  apply List.Pairwise.sublist (List.filter_sublist _)
  rw [List.pairwise_map]
  have hkeys : ((buildBuckets env files).map Prod.fst).Nodup := by
    unfold buildBuckets
    exact buildBuckets_keys_nodup env files [] (by simp)
  have hsha : ∀ kg ∈ buildBuckets env files, ∀ x ∈ kg.2,
      get_sha256 env x = some kg.1 := by
    unfold buildBuckets
    exact buildBuckets_sha env files [] (by simp)
  have hkeys' : List.Pairwise (fun kg1 kg2 : String × List String => kg1.1 ≠ kg2.1)
      (buildBuckets env files) := by
    rw [List.Nodup, List.pairwise_map] at hkeys
    exact hkeys
  refine hkeys'.imp_of_mem ?_
  intro kg1 kg2 h1 h2 hne x hx1 hx2
  apply hne
  have e1 := hsha kg1 h1 x hx1
  have e2 := hsha kg2 h2 x hx2
  rw [e1] at e2
  exact Option.some.inj e2

/-!
## Winner selection: membership facts
-/

theorem select_winner_mem (env : Env) {files : List String} {w r : String}
    (h : select_winner env files = some (w, r)) : w ∈ files := by
  unfold select_winner at h
  by_cases h1 : files.length = 1
  · rw [if_pos h1] at h
    obtain ⟨x, rfl⟩ := List.length_eq_one.mp h1
    have : x = w := by simpa using congrArg (fun o => (Option.getD o ("", "")).1) h
    rw [← this]
    exact List.mem_singleton_self x
  · rw [if_neg h1] at h
    split at h
    · exact absurd h (by simp)
    · exact absurd h (by simp)
    · rename_i winner second tail heq
      have hw : winner.path = w := by
        have := congrArg (fun o => (Option.getD o ("", "")).1) h
        simpa using this
      have hwinner : winner ∈ (files.insertionSort pathLE).map (mkMeta env) := by
        have : winner ∈ ((files.insertionSort pathLE).map (mkMeta env)).insertionSort
            metaKeyLE := by
          rw [heq]
          exact List.mem_cons_self _ _
        rwa [List.mem_insertionSort] at this
      rcases List.mem_map.mp hwinner with ⟨fx, hfx, hfxw⟩
      rw [List.mem_insertionSort] at hfx
      have : fx = w := by
        rw [← hw, ← hfxw]
        exact (mkMeta_path env fx).symm
      rw [← this]
      exact hfx

theorem select_winner_isSome (env : Env) {files : List String} (h : files ≠ []) :
    ∃ w r, select_winner env files = some (w, r) := by
  by_cases h1 : files.length = 1
  · refine ⟨files.headD "", "only file in group", ?_⟩
    unfold select_winner
    rw [if_pos h1]
  · have hlen : 2 ≤ files.length := by
      have := List.length_pos.mpr h
      omega
    unfold select_winner
    rw [if_neg h1]
    split
    · rename_i heq
      have := congrArg List.length heq
      simp only [List.length_insertionSort, List.length_map, List.length_nil] at this
      omega
    · rename_i x heq
      have := congrArg List.length heq
      simp only [List.length_insertionSort, List.length_map, List.length_cons,
        List.length_nil] at this
      omega
    · exact ⟨_, _, rfl⟩

theorem mkGroup_winner_mem (env : Env) (gid : Nat) (dt : String)
    {gf : List String} (dist : Option Nat) (h : gf ≠ []) :
    (mkGroup env gid dt gf dist).winner ∈ gf := by
  obtain ⟨w, r, hw⟩ := select_winner_isSome env h
  unfold mkGroup
  rw [hw]
  exact select_winner_mem env hw

theorem mkGroup_winner_not_dup (env : Env) (gid : Nat) (dt : String)
    (gf : List String) (dist : Option Nat) :
    (mkGroup env gid dt gf dist).winner ∉ (mkGroup env gid dt gf dist).duplicates := by
  intro hx
  unfold mkGroup at hx
  have := List.of_mem_filter hx
  simp at this

theorem mkGroup_dup_sub (env : Env) (gid : Nat) (dt : String)
    (gf : List String) (dist : Option Nat) :
    ∀ x ∈ (mkGroup env gid dt gf dist).duplicates, x ∈ gf := by
  intro x hx
  unfold mkGroup at hx
  exact List.mem_of_mem_filter hx

theorem mkGroup_claimed_sub (env : Env) (gid : Nat) (dt : String)
    {gf : List String} (dist : Option Nat) (h : gf ≠ []) :
    ∀ x ∈ claimedPaths (mkGroup env gid dt gf dist), x ∈ gf := by
  intro x hx
  rcases List.mem_cons.mp hx with he | hm
  · rw [he]
    exact mkGroup_winner_mem env gid dt dist h
  · exact mkGroup_dup_sub env gid dt gf dist x hm

theorem mkGroup_dup_nodup (env : Env) (gid : Nat) (dt : String)
    {gf : List String} (dist : Option Nat) (h : gf.Nodup) :
    (mkGroup env gid dt gf dist).duplicates.Nodup :=
  h.filter _

/-!
## Enumeration preserves pairwise facts
-/

theorem mem_enumFrom_snd {α : Type} : ∀ {l : List α} {n : Nat} {p : Nat × α},
    p ∈ l.enumFrom n → p.2 ∈ l := by
  intro l
  induction l with
  | nil => intro n p h; simp at h
  | cons a rest ih =>
    intro n p h
    rw [List.enumFrom_cons] at h
    rcases List.mem_cons.mp h with he | hm
    · rw [he]
      exact List.mem_cons_self _ _
    · exact List.mem_cons_of_mem _ (ih hm)

theorem pairwise_enumFrom {α : Type} {R : α → α → Prop} :
    ∀ (l : List α) (n : Nat), List.Pairwise R l →
      List.Pairwise (fun p q : Nat × α => R p.2 q.2) (l.enumFrom n) := by
  intro l
  induction l with
  | nil => intro n _; simp
  | cons a rest ih =>
    intro n hp
    rw [List.enumFrom_cons]
    rcases List.pairwise_cons.mp hp with ⟨ha, hrest⟩
    refine List.pairwise_cons.mpr ⟨?_, ih (n + 1) hrest⟩
    intro q hq
    exact ha q.2 (mem_enumFrom_snd hq)

theorem pairwise_claimed_of_map {β : Type} (F : β → DuplicateGroup)
    (gf : β → List String) {l : List β}
    (hc : ∀ b ∈ l, ∀ x ∈ claimedPaths (F b), x ∈ gf b)
    (hp : List.Pairwise (fun b1 b2 => ∀ x, x ∈ gf b1 → x ∉ gf b2) l) :
    List.Pairwise (fun g1 g2 => ∀ x, x ∈ claimedPaths g1 → x ∉ claimedPaths g2)
      (l.map F) := by
  rw [List.pairwise_map]
  refine hp.imp_of_mem ?_
  intro b1 b2 h1 h2 hr x hx1 hx2
  exact hr x (hc b1 h1 x hx1) (hc b2 h2 x hx2)

theorem mem_enum_snd {α : Type} {l : List α} {p : Nat × α} (h : p ∈ l.enum) :
    p.2 ∈ l :=
  mem_enumFrom_snd h

theorem mem_claimed_foldl {gs : List DuplicateGroup} {x : String} :
    x ∈ gs.foldl (fun acc g => acc ++ g.winner :: g.duplicates) [] ↔
      ∃ g ∈ gs, x ∈ claimedPaths g := by
  rw [foldl_append_eq (fun g => g.winner :: g.duplicates) gs []]
  simp [claimedPaths]

theorem find_exact_ne_nil (env : Env) (files : List String) :
    ∀ g ∈ find_exact_duplicates env files, g ≠ [] := by
  intro g hg he
  obtain ⟨hlen, -, -⟩ := find_exact_mem_bucket env files g hg
  rw [he] at hlen
  simp at hlen

theorem find_perceptual_ne_nil (env : Env) (t : Nat) (rem : List String) :
    ∀ gd ∈ find_perceptual_duplicates env t rem, gd.1 ≠ [] := by
  intro gd hgd
  obtain ⟨g, d⟩ := gd
  obtain ⟨f, h, ap, -, -, -, m4, -, -⟩ := greedy_spec env t _ _ _ _ hgd
  rw [m4]
  simp

theorem find_perceptual_sub (env : Env) (t : Nat) (rem : List String) :
    ∀ gd ∈ find_perceptual_duplicates env t rem, ∀ x ∈ gd.1, x ∈ rem := by
  intro gd hgd x hx
  have hk : x ∈ (phashPairs env rem).map Prod.fst :=
    greedy_sub_keys env t hgd x hx
  rcases List.mem_map.mp hk with ⟨p, hp, hpx⟩
  rw [← hpx]
  exact phashPairs_keys_sub env rem p hp

theorem find_perceptual_nodup (env : Env) (t : Nat) (rem : List String) :
    ∀ gd ∈ find_perceptual_duplicates env t rem, gd.1.Nodup := by
  intro gd hgd
  exact greedy_group_nodup env t (phashPairs env rem) []
    (phashPairs_keys_nodup env rem) gd hgd

/-!
## Invariants of `create_duplicate_groups`
-/

theorem create_groups_basic (env : Env) (mode : String) (t : Nat)
    (files : List String) :
    ∀ g ∈ create_duplicate_groups env mode t files,
      g.winner ∉ g.duplicates ∧ (∀ x ∈ claimedPaths g, x ∈ files) ∧
      (files.Nodup → g.duplicates.Nodup) := by
  have hexact : ∀ ig ∈ (find_exact_duplicates env files).enum,
      (mkGroup env ig.1 "exact" ig.2 none).winner ∉
        (mkGroup env ig.1 "exact" ig.2 none).duplicates ∧
      (∀ x ∈ claimedPaths (mkGroup env ig.1 "exact" ig.2 none), x ∈ files) ∧
      (files.Nodup → (mkGroup env ig.1 "exact" ig.2 none).duplicates.Nodup) := by
    intro ig hig
    have hgf : ig.2 ∈ find_exact_duplicates env files := mem_enum_snd hig
    obtain ⟨-, hsub, -⟩ := find_exact_mem_bucket env files ig.2 hgf
    have hne : ig.2 ≠ [] := find_exact_ne_nil env files ig.2 hgf
    refine ⟨mkGroup_winner_not_dup env ig.1 "exact" ig.2 none, ?_, ?_⟩
    · intro x hx
      exact hsub.subset (mkGroup_claimed_sub env ig.1 "exact" none hne x hx)
    · intro hnd
      exact mkGroup_dup_nodup env ig.1 "exact" none (List.Nodup.sublist hsub hnd)
  have hperc : ∀ (rem : List String), (∀ x ∈ rem, x ∈ files) →
      ∀ (n : Nat), ∀ ig ∈ (find_perceptual_duplicates env t rem).enum,
        (mkGroup env (n + ig.1) "perceptual" ig.2.1 (some ig.2.2)).winner ∉
          (mkGroup env (n + ig.1) "perceptual" ig.2.1 (some ig.2.2)).duplicates ∧
        (∀ x ∈ claimedPaths (mkGroup env (n + ig.1) "perceptual" ig.2.1 (some ig.2.2)),
          x ∈ files) ∧
        (files.Nodup →
          (mkGroup env (n + ig.1) "perceptual" ig.2.1 (some ig.2.2)).duplicates.Nodup) := by
    intro rem hrem n ig hig
    have hgd : ig.2 ∈ find_perceptual_duplicates env t rem := mem_enum_snd hig
    have hne : ig.2.1 ≠ [] := find_perceptual_ne_nil env t rem ig.2 hgd
    have hnd : ig.2.1.Nodup := find_perceptual_nodup env t rem ig.2 hgd
    refine ⟨mkGroup_winner_not_dup env (n + ig.1) "perceptual" ig.2.1 (some ig.2.2),
      ?_, ?_⟩
    · intro x hx
      exact hrem x (find_perceptual_sub env t rem ig.2 hgd x
        (mkGroup_claimed_sub env (n + ig.1) "perceptual" (some ig.2.2) hne x hx))
    · intro _
      exact mkGroup_dup_nodup env (n + ig.1) "perceptual" (some ig.2.2) hnd
  intro g hg
  simp only [create_duplicate_groups] at hg
  by_cases c2 : mode = "perceptual" ∨ mode = "exact+perceptual"
  · rw [if_pos c2] at hg
    rcases List.mem_append.mp hg with hg1 | hg1
    · by_cases c1 : mode = "exact" ∨ mode = "exact+perceptual"
      · rw [if_pos c1] at hg1
        rcases List.mem_map.mp hg1 with ⟨ig, hig, rfl⟩
        exact hexact ig hig
      · rw [if_neg c1] at hg1
        simp at hg1
    · rcases List.mem_map.mp hg1 with ⟨ig, hig, rfl⟩
      exact hperc _ (fun x hx => List.mem_of_mem_filter hx) _ ig hig
  · rw [if_neg c2] at hg
    by_cases c1 : mode = "exact" ∨ mode = "exact+perceptual"
    · rw [if_pos c1] at hg
      rcases List.mem_map.mp hg with ⟨ig, hig, rfl⟩
      exact hexact ig hig
    · rw [if_neg c1] at hg
      simp at hg

theorem create_groups_pairwise (env : Env) (mode : String) (t : Nat)
    (files : List String) :
    List.Pairwise (fun g1 g2 => ∀ x, x ∈ claimedPaths g1 → x ∉ claimedPaths g2)
      (create_duplicate_groups env mode t files) := by
  have hexactP : List.Pairwise
      (fun g1 g2 => ∀ x, x ∈ claimedPaths g1 → x ∉ claimedPaths g2)
      ((find_exact_duplicates env files).enum.map
        (fun ig => mkGroup env ig.1 "exact" ig.2 none)) := by
    apply pairwise_claimed_of_map _ (fun ig => ig.2)
    · intro ig hig x hx
      have hgf : ig.2 ∈ find_exact_duplicates env files := mem_enum_snd hig
      exact mkGroup_claimed_sub env ig.1 "exact" none
        (find_exact_ne_nil env files ig.2 hgf) x hx
    · exact pairwise_enumFrom _ 0 (find_exact_pairwise env files)
  have hpercP : ∀ (rem : List String) (n : Nat), List.Pairwise
      (fun g1 g2 => ∀ x, x ∈ claimedPaths g1 → x ∉ claimedPaths g2)
      ((find_perceptual_duplicates env t rem).enum.map
        (fun ig => mkGroup env (n + ig.1) "perceptual" ig.2.1 (some ig.2.2))) := by
    intro rem n
    apply pairwise_claimed_of_map _ (fun ig => ig.2.1)
    · intro ig hig x hx
      have hgd : ig.2 ∈ find_perceptual_duplicates env t rem := mem_enum_snd hig
      exact mkGroup_claimed_sub env (n + ig.1) "perceptual" (some ig.2.2)
        (find_perceptual_ne_nil env t rem ig.2 hgd) x hx
    · have hgp : List.Pairwise (fun gd1 gd2 => ∀ x, x ∈ gd1.1 → x ∉ gd2.1)
          (find_perceptual_duplicates env t rem) := by
        unfold find_perceptual_duplicates
        exact greedy_pairwise env t (phashPairs env rem) []
      exact pairwise_enumFrom _ 0 hgp
  simp only [create_duplicate_groups]
  by_cases c2 : mode = "perceptual" ∨ mode = "exact+perceptual"
  · rw [if_pos c2]
    by_cases c1 : mode = "exact" ∨ mode = "exact+perceptual"
    · rw [if_pos c1]
      rw [List.pairwise_append]
      refine ⟨hexactP, hpercP _ _, ?_⟩
      intro g1 hg1 g2 hg2 x hx1 hx2
      rcases List.mem_map.mp hg2 with ⟨ig, hig, rfl⟩
      have hgd : ig.2 ∈ find_perceptual_duplicates env t _ := mem_enum_snd hig
      have hx2' : x ∈ ig.2.1 :=
        mkGroup_claimed_sub env _ "perceptual" (some ig.2.2)
          (find_perceptual_ne_nil env t _ ig.2 hgd) x hx2
      have hxrem := find_perceptual_sub env t _ ig.2 hgd x hx2'
      have hxnp := List.of_mem_filter hxrem
      simp only [decide_eq_true_eq] at hxnp
      exact hxnp (mem_claimed_foldl.mpr ⟨g1, hg1, hx1⟩)
    · rw [if_neg c1]
      rw [List.nil_append]
      exact hpercP _ _
  · rw [if_neg c2]
    by_cases c1 : mode = "exact" ∨ mode = "exact+perceptual"
    · rw [if_pos c1]
      exact hexactP
    · rw [if_neg c1]
      simp

/-!
## C5 — each file is claimed by at most one group
-/

/-- C5: the groups of one run claim pairwise disjoint path sets — no
file is claimed by two groups, across or within the two passes (the
perceptual pass only sees files not claimed by the exact pass). -/
theorem each_file_in_at_most_one_group (env : Env) (mode : String) (t : Nat)
    (files : List String) :
    List.Pairwise (fun g1 g2 => ∀ x, x ∈ claimedPaths g1 → x ∉ claimedPaths g2)
      (create_duplicate_groups env mode t files) :=
  create_groups_pairwise env mode t files

/-- Closed instance of `each_file_in_at_most_one_group`. -/
theorem each_file_in_at_most_one_group_w :
    List.Pairwise (fun g1 g2 => ∀ x, x ∈ claimedPaths g1 → x ∉ claimedPaths g2)
      (create_duplicate_groups envA "exact" 6 ["a.jpg", "b.jpg"]) :=
  each_file_in_at_most_one_group envA "exact" 6 ["a.jpg", "b.jpg"]

/-!
## C8 — winner not among duplicates; duplicate entries
-/

/-- C8 counterexample: with a repeated input path, an exact group's
duplicates list can contain the same entry twice.  Here the input lists
`a.jpg` twice, all three files are byte-identical, `b.jpg` wins on
resolution, and the duplicates list is `[a.jpg, a.jpg]`. -/
theorem duplicates_with_repeated_input :
    ∃ g ∈ create_duplicate_groups envC "exact" 6 ["a.jpg", "a.jpg", "b.jpg"],
      ¬ g.duplicates.Nodup := by
  decide

/-- C8 (amended): for every emitted group the winner is not in the
duplicates list; and when the input file list has no repeated entries,
the duplicates list has no duplicate entries. -/
theorem winner_not_among_duplicates (env : Env) (mode : String) (t : Nat)
    (files : List String) :
    (∀ g ∈ create_duplicate_groups env mode t files, g.winner ∉ g.duplicates) ∧
    (files.Nodup →
      ∀ g ∈ create_duplicate_groups env mode t files, g.duplicates.Nodup) :=
  ⟨fun g hg => (create_groups_basic env mode t files g hg).1,
   fun hnd g hg => (create_groups_basic env mode t files g hg).2.2 hnd⟩

/-- Closed instance of `winner_not_among_duplicates`. -/
theorem winner_not_among_duplicates_w :
    (∀ g ∈ create_duplicate_groups envA "exact" 6 ["a.jpg", "b.jpg"],
      g.winner ∉ g.duplicates) ∧
    (["a.jpg", "b.jpg"] : List String).Nodup ∧
    (∀ g ∈ create_duplicate_groups envA "exact" 6 ["a.jpg", "b.jpg"],
      g.duplicates.Nodup) :=
  ⟨(winner_not_among_duplicates envA "exact" 6 ["a.jpg", "b.jpg"]).1, by decide,
   (winner_not_among_duplicates envA "exact" 6 ["a.jpg", "b.jpg"]).2 (by decide)⟩

/-!
## C1 — the three derived views partition the input
-/

/-- C1: every input file appears in exactly one of the three derived
views — winners, duplicates, uniques — and the three views are pairwise
disjoint. -/
theorem every_file_in_exactly_one_view (env : Env) (mode : String) (t : Nat)
    (files : List String) (f : String) (hf : f ∈ files) :
    (f ∈ get_all_winners (create_duplicate_groups env mode t files) ∨
     f ∈ get_all_duplicates (create_duplicate_groups env mode t files) ∨
     f ∈ get_unique_files (create_duplicate_groups env mode t files) files) ∧
    ¬(f ∈ get_all_winners (create_duplicate_groups env mode t files) ∧
      f ∈ get_all_duplicates (create_duplicate_groups env mode t files)) ∧
    ¬(f ∈ get_all_winners (create_duplicate_groups env mode t files) ∧
      f ∈ get_unique_files (create_duplicate_groups env mode t files) files) ∧
    ¬(f ∈ get_all_duplicates (create_duplicate_groups env mode t files) ∧
      f ∈ get_unique_files (create_duplicate_groups env mode t files) files) := by
  have hWD : ¬(f ∈ get_all_winners (create_duplicate_groups env mode t files) ∧
      f ∈ get_all_duplicates (create_duplicate_groups env mode t files)) := by
    rintro ⟨hw, hd⟩
    rcases mem_get_all_winners.mp hw with ⟨g1, hg1, hw1⟩
    rcases mem_get_all_duplicates.mp hd with ⟨g2, hg2, hd2⟩
    by_cases hgg : g1 = g2
    · subst hgg
      have hb := (create_groups_basic env mode t files g1 hg1).1
      rw [hw1] at hb
      exact hb hd2
    · have hsym : Symmetric (fun g1 g2 : DuplicateGroup =>
          ∀ x, x ∈ claimedPaths g1 → x ∉ claimedPaths g2) := by
        intro a b hab x hxb hxa
        exact hab x hxa hxb
      have hpair := List.Pairwise.forall hsym
        (create_groups_pairwise env mode t files) hg1 hg2 hgg
      apply hpair f
      · exact List.mem_cons.mpr (Or.inl hw1.symm)
      · exact List.mem_cons.mpr (Or.inr hd2)
  have hU := @mem_get_unique_files (create_duplicate_groups env mode t files) files f
  refine ⟨?_, hWD, ?_, ?_⟩
  · by_cases hw : f ∈ get_all_winners (create_duplicate_groups env mode t files)
    · exact Or.inl hw
    · by_cases hd : f ∈ get_all_duplicates (create_duplicate_groups env mode t files)
      · exact Or.inr (Or.inl hd)
      · refine Or.inr (Or.inr (hU.mpr ⟨hf, ?_⟩))
        rintro (h | h)
        · exact hw h
        · exact hd h
  · rintro ⟨hw, hu⟩
    exact (hU.mp hu).2 (Or.inl hw)
  · rintro ⟨hd, hu⟩
    exact (hU.mp hu).2 (Or.inr hd)

/-- Closed instance of `every_file_in_exactly_one_view`: two
byte-identical files under exact mode — `a.jpg` is the winner, `b.jpg`
the duplicate, no unique file. -/
theorem every_file_in_exactly_one_view_w :
    ("a.jpg" ∈ (["a.jpg", "b.jpg"] : List String)) ∧
    (("a.jpg" ∈ get_all_winners (create_duplicate_groups envA "exact" 6 ["a.jpg", "b.jpg"]) ∨
      "a.jpg" ∈ get_all_duplicates (create_duplicate_groups envA "exact" 6 ["a.jpg", "b.jpg"]) ∨
      "a.jpg" ∈ get_unique_files (create_duplicate_groups envA "exact" 6 ["a.jpg", "b.jpg"])
        ["a.jpg", "b.jpg"]) ∧
     ¬("a.jpg" ∈ get_all_winners (create_duplicate_groups envA "exact" 6 ["a.jpg", "b.jpg"]) ∧
       "a.jpg" ∈ get_all_duplicates (create_duplicate_groups envA "exact" 6 ["a.jpg", "b.jpg"])) ∧
     ¬("a.jpg" ∈ get_all_winners (create_duplicate_groups envA "exact" 6 ["a.jpg", "b.jpg"]) ∧
       "a.jpg" ∈ get_unique_files (create_duplicate_groups envA "exact" 6 ["a.jpg", "b.jpg"])
         ["a.jpg", "b.jpg"]) ∧
     ¬("a.jpg" ∈ get_all_duplicates (create_duplicate_groups envA "exact" 6 ["a.jpg", "b.jpg"]) ∧
       "a.jpg" ∈ get_unique_files (create_duplicate_groups envA "exact" 6 ["a.jpg", "b.jpg"])
         ["a.jpg", "b.jpg"])) :=
  ⟨by decide,
   every_file_in_exactly_one_view envA "exact" 6 ["a.jpg", "b.jpg"] "a.jpg" (by decide)⟩

end PhotosDedupe
